import Mathlib

/-!
# Lamport logical-clock virtual machine: verified model

A shallow embedding of `logical_clock.py` (class `VirtualMachine`) and the
log parser of `analyze_logs.py`.  Python integers are modelled as `Int`
(clock values, queued wire values), list indices as `Int` with Python's
negative-index semantics, and the probability drawn by `random.random()`
as a rational number.  Wall-clock timestamps only matter at the log-line
layer, where they are carried as the textual token that `str(float)`
produces; the structural `LogRecord` therefore omits them.

Operations that can raise in Python (`IndexError` from list indexing)
return `Option`, with `none` for the raising path.
-/

namespace LogicalClock

/-- One structured log record: `eventType, queueDepthAtEmission,
logicalClockAfterEvent, extra`.  The wall-clock timestamp is not part of
the machine-level model (it is handled by the string layer below). -/
structure LogRecord where
  eventType : String
  queueDepth : Nat
  logicalClock : Int
  extra : Option String
  deriving Repr, DecidableEq

/-- The mutable state of `VirtualMachine` that the clock logic touches:
`logical_clock`, the FIFO `message_queue` (head = oldest), the ordered
`peers` list (peer sockets, modelled by identifiers), the
`internal_event_prob` drawn against `random.random()`, and the log. -/
structure VirtualMachine where
  logical_clock : Int
  message_queue : List Int
  peers : List Nat
  internal_event_prob : ℚ
  log : List LogRecord
  deriving Repr, DecidableEq

/-- Python list indexing `l[i]`: a negative index addresses from the end;
an out-of-range index raises `IndexError`, modelled as `none`. -/
def pyIndex {α : Type} (l : List α) (i : Int) : Option α :=
  let j : Int := if i < 0 then (l.length : Int) + i else i
  if 0 ≤ j ∧ j < (l.length : Int) then l.get? j.toNat else none

/-- The comprehension `[self.peers[i] for i in target_indices if i < len(self.peers)]`
from `send_message`: indices `≥ len(peers)` are filtered out by the guard,
every surviving index is then evaluated with Python indexing, so a negative
index below `-len(peers)` raises `IndexError` (`none`). -/
def selectTargets (peers : List Nat) : List Int → Option (List Nat)
  | [] => some []
  | i :: rest =>
      if i < (peers.length : Int) then
        match pyIndex peers i, selectTargets peers rest with
        | some p, some ps => some (p :: ps)
        | _, _ => none
      else selectTargets peers rest

/-- Python's `repr` of a list of ints, as interpolated by
`f"peer(s) {target_indices}"`: elements separated by `", "`. -/
def pyIntListRepr (l : List Int) : String :=
  "[" ++ String.intercalate ", " (l.map toString) ++ "]"

/-- `VirtualMachine.send_message`: increments the clock first, selects the
targets (`None` = all peers), writes the post-increment clock to each
target, then logs a SEND record.  The returned list holds the
`(peer, wire value)` pairs written to the network. -/
def send_message (vm : VirtualMachine) (target_indices : Option (List Int)) :
    Option (VirtualMachine × List (Nat × Int)) :=
  let clock := vm.logical_clock + 1
  let targets? : Option (List Nat) :=
    match target_indices with
    | none => some vm.peers
    | some idx => selectTargets vm.peers idx
  match targets? with
  | none => none
  | some targets =>
      let target_str : String :=
        match target_indices with
        | none => "all peers"
        | some idx => "peer(s) " ++ pyIntListRepr idx
      some ({ vm with
                logical_clock := clock,
                log := vm.log ++
                  [⟨"SEND", vm.message_queue.length, clock, some target_str⟩] },
            targets.map (fun p => (p, clock)))

/-- `VirtualMachine.process_internal_event`: `logical_clock += 1` and an
INTERNAL log record. -/
def process_internal_event (vm : VirtualMachine) : VirtualMachine :=
  { vm with
      logical_clock := vm.logical_clock + 1,
      log := vm.log ++
        [⟨"INTERNAL", vm.message_queue.length, vm.logical_clock + 1, none⟩] }

/-- `VirtualMachine.process_message`: on a non-empty queue, pop the oldest
value `v`, set `logical_clock = max(logical_clock, v) + 1`, log a RECEIVE
record and return `True`; on an empty queue return `False` unchanged. -/
def process_message (vm : VirtualMachine) : Bool × VirtualMachine :=
  match vm.message_queue with
  | [] => (false, vm)
  | v :: rest =>
      let clock := max vm.logical_clock v + 1
      (true, { vm with
                 logical_clock := clock,
                 message_queue := rest,
                 log := vm.log ++ [⟨"RECEIVE", rest.length, clock, none⟩] })

/-- The random draws one iteration of `VirtualMachine.run` may consume:
`random.random()` (compared with `internal_event_prob`), the category
`random.randint(1, 3)`, and the target index `random.randint(0, len-1)`
used by the two targeted-send branches. -/
structure TickRand where
  rand_val : ℚ
  comm_type : Nat
  target_idx : Nat
  deriving Repr, DecidableEq

/-- One iteration of the scheduling loop of `VirtualMachine.run` (the body
inside `while self.running`, minus the sleep): first try
`process_message`; only if the queue was empty draw the random action.
Category 1 needs a non-empty peers list, category 2 needs at least two
peers, category 3 (broadcast) needs a non-empty peers list; every other
case falls back to an internal event. -/
def tick (vm : VirtualMachine) (r : TickRand) :
    Option (VirtualMachine × List (Nat × Int)) :=
  match process_message vm with
  | (true, vm') => some (vm', [])
  | (false, _) =>
      if r.rand_val < vm.internal_event_prob then
        some (process_internal_event vm, [])
      else if r.comm_type = 1 ∧ vm.peers ≠ [] then
        send_message vm (some [(r.target_idx : Int)])
      else if r.comm_type = 2 ∧ 2 ≤ vm.peers.length then
        send_message vm (some [(r.target_idx : Int)])
      else if r.comm_type = 3 ∧ vm.peers ≠ [] then
        send_message vm none
      else
        some (process_internal_event vm, [])

/-! ## Multi-node trace semantics

`VirtualMachine.run` instances exchange wire values over TCP: a
`send_message` on machine `i` eventually lands in machine `j`'s
`message_queue` via `handle_client`.  The trace model below composes the
clock rules of `send_message` / `process_internal_event` /
`process_message` into a step function on a family of nodes, with the
network write modelled as a direct append to the receiver's FIFO queue.
Nodes are indexed by `Nat`; the initial system has every clock `0` and
every queue empty, matching `VirtualMachine.__init__`. -/

/-- The per-node state the clock logic touches: the Lamport counter and
the inbound FIFO queue (head = oldest). -/
structure NodeState where
  clock : Int
  queue : List Int
  deriving Repr, DecidableEq

/-- A system: one `NodeState` per node index. -/
def Sys : Type := Nat → NodeState

/-- All clocks `0`, all queues empty (`__init__`). -/
def initSys : Sys := fun _ => ⟨0, []⟩

/-- One observable event of the system: an internal event on node `i`, a
send from `i` to `j` (one wire write of `send_message`), or a receive on
node `i` (`process_message` on a non-empty queue). -/
inductive Op where
  | internal (i : Nat)
  | send (i j : Nat)
  | recv (i : Nat)
  deriving Repr, DecidableEq

/-- The node on which an `Op` is executed (and logged). -/
def Op.node : Op → Nat
  | .internal i => i
  | .send i _ => i
  | .recv i => i

/-- One step of the composed system.
`internal i`: `logical_clock += 1` on `i`.
`send i j`: `i` increments its clock first, then the post-increment value
travels to `j`'s queue (`sendall` + `handle_client` + `queue.put`).
`recv i`: `process_message` — pop the oldest queued value `v` and set
`clock = max(clock, v) + 1`; on an empty queue nothing happens
(`process_message` returns `False`). -/
def stepOp (s : Sys) : Op → Sys
  | .internal i => Function.update s i ⟨(s i).clock + 1, (s i).queue⟩
  | .send i j =>
      let wire := (s i).clock + 1
      let s' := Function.update s i ⟨wire, (s i).queue⟩
      Function.update s' j ⟨(s' j).clock, (s' j).queue ++ [wire]⟩
  | .recv i =>
      match (s i).queue with
      | [] => s
      | v :: rest => Function.update s i ⟨max (s i).clock v + 1, rest⟩

/-- Run a trace of operations. -/
def runOps (s : Sys) : List Op → Sys
  | [] => s
  | op :: rest => runOps (stepOp s op) rest

/-- An operation the real system can actually perform in state `s`:
sends go to a different machine (peers exclude the machine itself), and a
RECEIVE event only happens when the queue is non-empty (`run` only logs a
receive when `process_message` returned `True`). -/
def opValid (s : Sys) : Op → Prop
  | .internal _ => True
  | .send i j => i ≠ j
  | .recv i => (s i).queue ≠ []

/-- Every operation of the trace is performable when its turn comes. -/
def ValidFrom (s : Sys) : List Op → Prop
  | [] => True
  | op :: rest => opValid s op ∧ ValidFrom (stepOp s op) rest

instance decOpValid (s : Sys) (op : Op) : Decidable (opValid s op) :=
  match op with
  | .internal _ => isTrue trivial
  | .send i j => inferInstanceAs (Decidable (i ≠ j))
  | .recv i => inferInstanceAs (Decidable ((s i).queue ≠ []))

def decValidFrom (s : Sys) : (ops : List Op) → Decidable (ValidFrom s ops)
  | [] => isTrue trivial
  | op :: rest => @instDecidableAnd _ _ (decOpValid s op) (decValidFrom (stepOp s op) rest)

instance (s : Sys) (ops : List Op) : Decidable (ValidFrom s ops) := decValidFrom s ops

/-- The clock of node `i` after the first `p` operations of the trace. -/
def clockAt (s : Sys) (ops : List Op) (i : Nat) (p : Nat) : Int :=
  (runOps s (ops.take p)) i |>.clock

/-- The operation at position `p` (default irrelevant: only used under
`ops.get? p = some _` side conditions). -/
def opAt (ops : List Op) (p : Nat) : Op := (ops.get? p).getD (.internal 0)

/-- The logical-clock value recorded (logged) at event `p`: the clock of
the event's node right after the event executed. -/
def eventClock (s : Sys) (ops : List Op) (p : Nat) : Int :=
  clockAt s ops (opAt ops p).node (p + 1)

/-- Does `op` push a message onto node `j`'s queue? -/
def Op.isSendTo (j : Nat) : Op → Bool
  | .send _ j' => j' = j
  | _ => false

/-- Does `op` pop a message from node `j`'s queue? -/
def Op.isRecvBy (j : Nat) : Op → Bool
  | .recv i => i = j
  | _ => false

def countSendTo (j : Nat) (ops : List Op) : Nat := (ops.filter (Op.isSendTo j)).length

def countRecvBy (j : Nat) (ops : List Op) : Nat := (ops.filter (Op.isRecvBy j)).length

/-- The wire values appended to node `j`'s queue along a run, in arrival
order.  Each send transmits the sender's post-increment clock. -/
def sentVals (s : Sys) (j : Nat) : List Op → List Int
  | [] => []
  | op :: rest =>
      (match op with
       | .send i j' => if j' = j then [(s i).clock + 1] else []
       | _ => []) ++ sentVals (stepOp s op) j rest

/-- Causal precedence between trace positions (Lamport's happens-before):
two events of the same node in trace order; a send and the receive that
pops the very message it transmitted (the `m`-th receive by `j` pops the
`m`-th value to arrive in `j`'s FIFO queue); and transitivity. -/
inductive HB (ops : List Op) : Nat → Nat → Prop
  | same_node {p q : Nat} (opp opq : Op) :
      p < q → ops.get? p = some opp → ops.get? q = some opq →
      opp.node = opq.node → HB ops p q
  | message {p q : Nat} (i j : Nat) :
      p < q → ops.get? p = some (.send i j) → ops.get? q = some (.recv j) →
      countSendTo j (ops.take p) = countRecvBy j (ops.take q) → HB ops p q
  | trans {p q r : Nat} : HB ops p q → HB ops q r → HB ops p r

/-- The concrete causal chain of the spec's causal-ordering property:
A(internal on N0) → B(send N0→N1) → C(receive on N1) → D(internal on N1)
→ E(send N1→N2) → F(receive on N2). -/
def chainOps : List Op :=
  [.internal 0, .send 0 1, .recv 1, .internal 1, .send 1 2, .recv 2]

/-! ## Peer dialing (`connect_to_peers`)

`connect_to_peers` dials each address of `peer_ports` in order.  Per
address: up to `max_retries = 10` attempts; a `ConnectionRefusedError`
increments the retry counter and sleeps one second; a success appends the
socket to `peers` and moves on.  A peer's behaviour is modelled as a
predicate saying whether attempt number `k` (0-based) is accepted. -/

/-- The externally visible actions of the dial loop for one address: a
connection attempt (with its 0-based attempt number) or the
`time.sleep(1)` backoff taken after a refusal. -/
inductive DialAction where
  | attempt (k : Nat)
  | sleep1
  deriving Repr, DecidableEq

/-- The `while retry_count < max_retries` loop for a single address.
`fuel` is `max_retries - retry_count`, `k` the current retry count.
Returns whether the connection succeeded plus the action trace. -/
def connectLoop (succeeds : Nat → Bool) : Nat → Nat → Bool × List DialAction
  | 0, _ => (false, [])
  | fuel + 1, k =>
      if succeeds k then (true, [.attempt k])
      else
        let r := connectLoop succeeds fuel (k + 1)
        (r.1, .attempt k :: .sleep1 :: r.2)

/-- `connect_to_peers`: dial every address in order (address paired with
its behaviour); successes are appended to `peers` in address order, a
failed address is skipped and the loop continues (non-fatal).  Also
returns the per-address dial traces, in address order. -/
def connect_to_peers {α : Type} : List (α × (Nat → Bool)) → List α × List (List DialAction)
  | [] => ([], [])
  | (addr, behaviour) :: rest =>
      let r := connectLoop behaviour 10 0
      let rec' := connect_to_peers rest
      (if r.1 then addr :: rec'.1 else rec'.1, r.2 :: rec'.2)

/-- Number of connection attempts in a dial trace. -/
def countAttempts (trace : List DialAction) : Nat :=
  (trace.filter fun a => match a with | .attempt _ => true | .sleep1 => false).length

/-! ## Inbound reader (`handle_client`)

One reader per accepted connection.  Each loop iteration blocks on
`recv(1024)`; the outcomes are: a data chunk (decoded to text), an empty
read (peer closed), or an exception from `recv`.  A chunk is stripped and
parsed with `int(...)`; on success the value is pushed onto the shared
queue, on any exception (decode error) the reader breaks.  An empty read
or a read error also breaks.  After the loop the reader closes its own
socket; nothing else of the machine is touched. -/

/-- Outcome of one `client_socket.recv(1024)` call. -/
inductive ReadResult where
  | chunk (s : String)
  | closed
  | errRead
  deriving Repr, DecidableEq

/-- Python `str.strip()` whitespace. -/
def isPySpace (c : Char) : Bool :=
  c = ' ' ∨ c = '\t' ∨ c = '\n' ∨ c = '\r' ∨ c = '\x0b' ∨ c = '\x0c'

/-- `str.strip()` on a character list. -/
def pyStripChars (cs : List Char) : List Char :=
  ((cs.dropWhile isPySpace).reverse.dropWhile isPySpace).reverse

/-- ASCII decimal digit. -/
def isDigitChar (c : Char) : Bool := 48 ≤ c.toNat ∧ c.toNat ≤ 57

/-- Value of an ASCII digit. -/
def digitVal (c : Char) : Nat := c.toNat - 48

/-- Accumulating decimal parse; fails on the first non-digit. -/
def parseNatAux : Nat → List Char → Option Nat
  | acc, [] => some acc
  | acc, c :: cs =>
      if isDigitChar c then parseNatAux (acc * 10 + digitVal c) cs else none

/-- Unsigned decimal parse; the empty string is rejected. -/
def parseNatChars (cs : List Char) : Option Nat :=
  if cs = [] then none else parseNatAux 0 cs

/-- Python `int(...)` on stripped text: optional sign then decimal digits
(the exotic admissions of CPython — underscores, non-ASCII digits — are
out of scope; only decimal tokens ever reach the parser here). -/
def parseIntChars (cs : List Char) : Option Int :=
  match cs with
  | [] => none
  | c :: rest =>
      if c = '-' then (parseNatChars rest).map (fun n => -(n : Int))
      else if c = '+' then (parseNatChars rest).map (fun n => (n : Int))
      else (parseNatChars (c :: rest)).map (fun n => (n : Int))

/-- `int(s.strip())` (Python `int` itself also tolerates surrounding
whitespace). -/
def pyInt (s : String) : Option Int := parseIntChars (pyStripChars s.data)

/-- `VirtualMachine.handle_client` driven by a finite schedule of read
outcomes, acting on the machine state it shares (the queue); on a decoded
integer the value is appended to `message_queue`, every failure path just
stops the reader.  The logical clock is never touched. -/
def handle_client (vm : VirtualMachine) : List ReadResult → VirtualMachine
  | [] => vm
  | .closed :: _ => vm
  | .errRead :: _ => vm
  | .chunk s :: rest =>
      match pyInt s with
      | some v => handle_client { vm with message_queue := vm.message_queue ++ [v] } rest
      | none => vm

/-! ## Log-line layer (`logger.info` f-strings and `parse_log_file`)

A log line is `eventType,timestamp,queueDepth,logicalClock[,extra]`.  The
wall-clock timestamp is carried as the token `str(float)` produced; Python
guarantees `float(str(x)) == x`, so preserving the token verbatim is
exactly the claimed no-precision-loss round trip.  `float(...)` acceptance
is modelled as a character-level token check (floating point itself is out
of scope). -/

/-- ASCII digit character. -/
def digitChar (d : Nat) : Char := Char.ofNat (48 + d)

/-- Decimal digits of `n`, most significant first (`fuel`-driven; any
`fuel > n` gives the digits of `n`). -/
def natDigitsAux : Nat → Nat → List Char
  | 0, _ => []
  | fuel + 1, n =>
      if n < 10 then [digitChar n]
      else natDigitsAux fuel (n / 10) ++ [digitChar (n % 10)]

/-- Python `str(n)` for a non-negative int. -/
def natStr (n : Nat) : String := ⟨natDigitsAux (n + 1) n⟩

/-- Python `str(i)` for an int. -/
def intStr (i : Int) : String :=
  if i < 0 then "-" ++ natStr (-i).toNat else natStr i.toNat

/-- The f-string of the emitting machine made textual:
`f"{eventType},{timestamp},{queueDepth},{logicalClock}"`, with `,extra`
appended when present (SEND target description, START parameters). -/
def formatLogRecord (r : LogRecord) (ts : String) : String :=
  r.eventType ++ "," ++ ts ++ "," ++ natStr r.queueDepth ++ "," ++ intStr r.logicalClock ++
    (match r.extra with
     | none => ""
     | some e => "," ++ e)

/-- Split off everything before the first `sep`, returning the remainder
when a `sep` was found. -/
def breakSep (sep : Char) : List Char → List Char × Option (List Char)
  | [] => ([], none)
  | c :: cs =>
      if c = sep then ([], some cs)
      else
        let r := breakSep sep cs
        (c :: r.1, r.2)

/-- Python `s.split(sep, maxsplit)`: at most `maxsplit` splits, taken from
the left. -/
def splitLimit (sep : Char) : Nat → List Char → List (List Char)
  | 0, cs => [cs]
  | maxsplit + 1, cs =>
      match breakSep sep cs with
      | (t, none) => [t]
      | (t, some rest) => t :: splitLimit sep maxsplit rest

/-- Characters `float(...)` tokens are made of (comma-free by
construction, which is what the 4-comma split relies on). -/
def isFloatTokenChar (c : Char) : Bool :=
  isDigitChar c ∨ c = '.' ∨ c = '-' ∨ c = '+' ∨ c = 'e' ∨ c = 'E'

/-- Token-level model of `float(...)` acceptance. -/
def isFloatToken (cs : List Char) : Bool :=
  decide (cs ≠ []) ∧ cs.all isFloatTokenChar ∧ cs.any isDigitChar

/-- One row of the DataFrame built by `parse_log_file`.  The timestamp is
kept as the verbatim token `float(...)` received. -/
structure ParsedRecord where
  event_type : String
  timestamp : String
  queue_size : Int
  logical_clock : Int
  additional_info : String
  deriving Repr, DecidableEq

/-- One line of `parse_log_file`: strip, split on the first 4 commas
only; lines with fewer than 4 fields are skipped (`none`); field 4 is
`additional_info` and defaults to `""`.  `float(parts[1])`,
`int(parts[2])` and `int(parts[3])` raising is also `none`. -/
def parseLogLine (line : String) : Option ParsedRecord :=
  let parts := splitLimit ',' 4 (pyStripChars line.data)
  match parts.get? 0, parts.get? 1, parts.get? 2, parts.get? 3 with
  | some p0, some p1, some p2, some p3 =>
      if isFloatToken p1 then
        match parseIntChars (pyStripChars p2), parseIntChars (pyStripChars p3) with
        | some q, some c => some ⟨⟨p0⟩, ⟨p1⟩, q, c, ⟨parts.getD 4 []⟩⟩
        | _, _ => none
      else none
  | _, _, _, _ => none

/-! ## Theorems -/

/-- C1: `process_message` on a non-empty queue pops exactly one message
(the oldest) and sets the clock to `max(c, v) + 1`, logging a RECEIVE
record; in particular `c=3, v=5` yields `6` and `c=7, v=2` yields `8`. -/
theorem process_message_receive_rule :
    (∀ (vm : VirtualMachine) (v : Int) (rest : List Int),
        vm.message_queue = v :: rest →
        process_message vm =
          (true, { vm with
                     logical_clock := max vm.logical_clock v + 1,
                     message_queue := rest,
                     log := vm.log ++
                       [⟨"RECEIVE", rest.length, max vm.logical_clock v + 1, none⟩] })) ∧
    (process_message ⟨3, [5], [], 7/10, []⟩).2.logical_clock = 6 ∧
    (process_message ⟨7, [2], [], 7/10, []⟩).2.logical_clock = 8 := by
  refine ⟨?_, by decide, by decide⟩
  intro vm v rest h
  simp [process_message, h]

/-- Witness for C1 at the spec's concrete inputs. -/
theorem process_message_receive_rule_witness :
    (⟨3, [5], [], 7/10, []⟩ : VirtualMachine).message_queue = [5] ∧
      process_message ⟨3, [5], [], 7/10, []⟩ =
        (true, ⟨6, [], [], 7/10, [⟨"RECEIVE", 0, 6, none⟩]⟩) := by
  refine ⟨rfl, ?_⟩
  have h := process_message_receive_rule.1 ⟨3, [5], [], 7/10, []⟩ 5 [] rfl
  simpa using h

/-- C2: every `send_message` (targeted or broadcast) that completes has
incremented the clock by exactly 1, and the wire value written to every
target is that post-increment clock `c + 1`; a broadcast writes it to
every peer. -/
theorem send_message_increments (vm : VirtualMachine) (t : Option (List Int))
    (out : VirtualMachine × List (Nat × Int)) (h : send_message vm t = some out) :
    out.1.logical_clock = vm.logical_clock + 1 ∧
      (∀ w ∈ out.2, w.2 = vm.logical_clock + 1) ∧
      (t = none → out.2 = vm.peers.map (fun p => (p, vm.logical_clock + 1))) := by
  cases t with
  | none =>
      simp [send_message] at h
      subst h
      simp
  | some idx =>
      cases hsel : selectTargets vm.peers idx with
      | none => simp [send_message, hsel] at h
      | some targets =>
          simp [send_message, hsel] at h
          subst h
          refine ⟨rfl, ?_, ?_⟩
          · intro w hw
            simp at hw
            obtain ⟨p, hp, rfl⟩ := hw
            rfl
          · intro hcontra
            cases hcontra

/-- Witness for C2: a broadcast among two peers from clock 4 sends wire
value 5 to both. -/
theorem send_message_increments_witness :
    ((⟨5, [], [10, 11], 7/10, [⟨"SEND", 0, 5, some "all peers"⟩]⟩ : VirtualMachine),
        ([(10, 5), (11, 5)] : List (Nat × Int))).1.logical_clock = 4 + 1 ∧
      (∀ w ∈ ((⟨5, [], [10, 11], 7/10, [⟨"SEND", 0, 5, some "all peers"⟩]⟩ : VirtualMachine),
        ([(10, 5), (11, 5)] : List (Nat × Int))).2, w.2 = 4 + 1) ∧
      ((none : Option (List Int)) = none →
        ((⟨5, [], [10, 11], 7/10, [⟨"SEND", 0, 5, some "all peers"⟩]⟩ : VirtualMachine),
        ([(10, 5), (11, 5)] : List (Nat × Int))).2 =
          ([10, 11] : List Nat).map (fun p => (p, (4 : Int) + 1))) :=
  send_message_increments ⟨4, [], [10, 11], 7/10, []⟩ none _ rfl

theorem pyIndex_nonneg {α : Type} (l : List α) (i : Int) (h0 : 0 ≤ i)
    (hlt : i < (l.length : Int)) : pyIndex l i = l.get? i.toNat := by
  unfold pyIndex
  rw [if_neg (by omega : ¬ i < 0)]
  exact if_pos ⟨h0, hlt⟩

theorem pyIndex_neg {α : Type} (l : List α) (k : Nat) (h1 : 1 ≤ k) (h2 : k ≤ l.length) :
    pyIndex l (-(k : Int)) = l.get? (l.length - k) := by
  unfold pyIndex
  rw [if_pos (by omega : (-(k : Int)) < 0)]
  rw [if_pos ⟨by omega, by omega⟩]
  congr 1
  omega

theorem pyIndex_isSome {α : Type} (l : List α) (i : Int)
    (hi : i < (l.length : Int)) (hneg : i < 0 → -i ≤ (l.length : Int)) :
    ∃ p, pyIndex l i = some p := by
  by_cases h0 : 0 ≤ i
  · rw [pyIndex_nonneg l i h0 hi]
    have hlen : i.toNat < l.length := by omega
    exact ⟨l.get ⟨i.toNat, hlen⟩, List.get?_eq_get hlen⟩
  · push_neg at h0
    have hk := hneg h0
    have hik : i = -(((-i).toNat : Nat) : Int) := by omega
    rw [hik, pyIndex_neg l (-i).toNat (by omega) (by omega)]
    have hlen : l.length - (-i).toNat < l.length := by omega
    exact ⟨l.get ⟨_, hlen⟩, List.get?_eq_get hlen⟩

theorem selectTargets_eq_of_inRange (peers : List Nat) (idx : List Int)
    (hneg : ∀ i ∈ idx, i < 0 → -i ≤ (peers.length : Int)) :
    selectTargets peers idx =
      some ((idx.filter (fun i => decide (i < (peers.length : Int)))).filterMap
              (fun i => pyIndex peers i)) := by
  induction idx with
  | nil => rfl
  | cons i rest ih =>
      have hrest : ∀ x ∈ rest, x < 0 → -x ≤ (peers.length : Int) :=
        fun x hx => hneg x (List.mem_cons_of_mem _ hx)
      by_cases hi : i < (peers.length : Int)
      · obtain ⟨p, hp⟩ := pyIndex_isSome peers i hi (hneg i (List.mem_cons_self _ _))
        simp [selectTargets, hi, hp, ih hrest, List.filter_cons, List.filterMap_cons]
      · simp [selectTargets, hi, ih hrest, List.filter_cons]

/-- C10: with an explicit index list whose negative entries are in range,
`send_message` completes without error: indices `≥ len(peers)` are
silently dropped by the guard while the rest are still written to, a
negative index `-k` addresses the `k`-th peer from the end, and the
clock increment and the SEND log record happen even when every index was
filtered out. -/
theorem send_message_index_semantics (vm : VirtualMachine) (idx : List Int)
    (hneg : ∀ i ∈ idx, i < 0 → -i ≤ (vm.peers.length : Int)) :
    (∃ out, send_message vm (some idx) = some out ∧
       out.2.map Prod.fst =
         (idx.filter (fun i => decide (i < (vm.peers.length : Int)))).filterMap
           (fun i => pyIndex vm.peers i) ∧
       out.1.logical_clock = vm.logical_clock + 1 ∧
       out.1.log = vm.log ++ [⟨"SEND", vm.message_queue.length, vm.logical_clock + 1,
         some ("peer(s) " ++ pyIntListRepr idx)⟩]) ∧
    (∀ k : Nat, 1 ≤ k → k ≤ vm.peers.length →
       pyIndex vm.peers (-(k : Int)) = vm.peers.get? (vm.peers.length - k)) := by
  constructor
  · refine ⟨({ vm with
                 logical_clock := vm.logical_clock + 1,
                 log := vm.log ++ [⟨"SEND", vm.message_queue.length, vm.logical_clock + 1,
                   some ("peer(s) " ++ pyIntListRepr idx)⟩] },
             ((idx.filter (fun i => decide (i < (vm.peers.length : Int)))).filterMap
                (fun i => pyIndex vm.peers i)).map (fun p => (p, vm.logical_clock + 1))),
            ?_, ?_, rfl, rfl⟩
    · simp [send_message, selectTargets_eq_of_inRange vm.peers idx hneg]
    · rw [List.map_map]
      exact List.map_id _
  · intro k h1 h2
    exact pyIndex_neg vm.peers k h1 h2

/-- Witness for C10: peers `[10, 11]`, indices `[5, -1]`: index 5 is
skipped, `-1` addresses peer 11; the clock still increments. -/
theorem send_message_index_semantics_witness :
    (∃ out, send_message (⟨0, [], [10, 11], 7/10, []⟩ : VirtualMachine) (some [5, -1]) = some out ∧
       out.2.map Prod.fst =
         (([5, -1] : List Int).filter
            (fun i => decide (i < (((⟨0, [], [10, 11], 7/10, []⟩ : VirtualMachine)).peers.length : Int)))).filterMap
           (fun i => pyIndex ((⟨0, [], [10, 11], 7/10, []⟩ : VirtualMachine)).peers i) ∧
       out.1.logical_clock = (0 : Int) + 1 ∧
       out.1.log = [] ++ [⟨"SEND", 0, (0 : Int) + 1, some ("peer(s) " ++ pyIntListRepr [5, -1])⟩]) ∧
    (∀ k : Nat, 1 ≤ k → k ≤ ([10, 11] : List Nat).length →
       pyIndex ([10, 11] : List Nat) (-(k : Int)) = ([10, 11] : List Nat).get? (([10, 11] : List Nat).length - k)) :=
  send_message_index_semantics ⟨0, [], [10, 11], 7/10, []⟩ [5, -1] (by decide)

theorem send_message_shape (vm : VirtualMachine) (t : Option (List Int))
    (out : VirtualMachine × List (Nat × Int)) (h : send_message vm t = some out) :
    ∃ estr, out.1 = { vm with
        logical_clock := vm.logical_clock + 1,
        log := vm.log ++
          [⟨"SEND", vm.message_queue.length, vm.logical_clock + 1, some estr⟩] } := by
  cases t with
  | none =>
      simp [send_message] at h
      subst h
      exact ⟨"all peers", rfl⟩
  | some idx =>
      cases hsel : selectTargets vm.peers idx with
      | none => simp [send_message, hsel] at h
      | some targets =>
          simp [send_message, hsel] at h
          subst h
          exact ⟨"peer(s) " ++ pyIntListRepr idx, rfl⟩

/-- C6: one tick of the scheduling loop.  If the inbound queue is
non-empty the tick pops the oldest value, applies the receive rule, logs
a RECEIVE record, transmits nothing, and ignores the random draws
entirely (the right-hand side does not mention `r`); and every completed
tick appends exactly one log record and performs at most one clock
step (`+1`, or the receive rule when a message was pending). -/
theorem tick_receive_priority (vm : VirtualMachine) (r : TickRand) :
    (∀ v rest, vm.message_queue = v :: rest →
       tick vm r = some ({ vm with
            logical_clock := max vm.logical_clock v + 1,
            message_queue := rest,
            log := vm.log ++
              [⟨"RECEIVE", rest.length, max vm.logical_clock v + 1, none⟩] }, [])) ∧
    (∀ out, tick vm r = some out →
       (∃ rec, out.1.log = vm.log ++ [rec]) ∧
       (out.1.logical_clock = vm.logical_clock + 1 ∨
        ∃ v rest, vm.message_queue = v :: rest ∧
          out.1.logical_clock = max vm.logical_clock v + 1)) := by
  have hrecv : ∀ v rest, vm.message_queue = v :: rest →
      tick vm r = some ({ vm with
           logical_clock := max vm.logical_clock v + 1,
           message_queue := rest,
           log := vm.log ++
             [⟨"RECEIVE", rest.length, max vm.logical_clock v + 1, none⟩] }, []) := by
    intro v rest h
    simp [tick, process_message, h]
  refine ⟨hrecv, ?_⟩
  intro out hout
  cases hq : vm.message_queue with
  | cons v rest =>
      rw [hrecv v rest hq] at hout
      have : ({ vm with
           logical_clock := max vm.logical_clock v + 1,
           message_queue := rest,
           log := vm.log ++
             [⟨"RECEIVE", rest.length, max vm.logical_clock v + 1, none⟩] }, ([] : List (Nat × Int))) = out :=
        Option.some_injective _ hout
      subst this
      exact ⟨⟨⟨"RECEIVE", rest.length, max vm.logical_clock v + 1, none⟩, rfl⟩,
        Or.inr ⟨v, rest, rfl, rfl⟩⟩
  | nil =>
      simp only [tick, process_message, hq] at hout
      by_cases h1 : r.rand_val < vm.internal_event_prob
      · rw [if_pos h1] at hout
        have heq : (process_internal_event vm, ([] : List (Nat × Int))) = out :=
          Option.some_injective _ hout
        subst heq
        exact ⟨⟨_, rfl⟩, Or.inl rfl⟩
      · rw [if_neg h1] at hout
        by_cases h2 : r.comm_type = 1 ∧ vm.peers ≠ []
        · rw [if_pos h2] at hout
          obtain ⟨estr, h1⟩ := send_message_shape vm _ out hout
          rw [h1]
          exact ⟨⟨_, rfl⟩, Or.inl rfl⟩
        · rw [if_neg h2] at hout
          by_cases h3 : r.comm_type = 2 ∧ 2 ≤ vm.peers.length
          · rw [if_pos h3] at hout
            obtain ⟨estr, h1⟩ := send_message_shape vm _ out hout
            rw [h1]
            exact ⟨⟨_, rfl⟩, Or.inl rfl⟩
          · rw [if_neg h3] at hout
            by_cases h4 : r.comm_type = 3 ∧ vm.peers ≠ []
            · rw [if_pos h4] at hout
              obtain ⟨estr, h1⟩ := send_message_shape vm _ out hout
              rw [h1]
              exact ⟨⟨_, rfl⟩, Or.inl rfl⟩
            · rw [if_neg h4] at hout
              have heq : (process_internal_event vm, ([] : List (Nat × Int))) = out :=
                Option.some_injective _ hout
              subst heq
              exact ⟨⟨_, rfl⟩, Or.inl rfl⟩

/-- Witness for C6: a tick with a pending message `5` at clock `3`. -/
theorem tick_receive_priority_witness :
    tick ⟨3, [5], [9], 0, []⟩ ⟨0, 1, 0⟩ =
      some (⟨max 3 5 + 1, [], [9], 0, [⟨"RECEIVE", 0, max 3 5 + 1, none⟩]⟩, []) :=
  (tick_receive_priority ⟨3, [5], [9], 0, []⟩ ⟨0, 1, 0⟩).1 5 [] rfl

/-- C5 counterexample: a machine with exactly one peer, an empty queue,
and a communication draw of category 2 performs an INTERNAL event and
transmits nothing — although the peers list is non-empty — because the
category-2 guard in `run` is `len(self.peers) >= 2`, not truthiness. -/
theorem tick_category2_single_peer_counterexample :
    (⟨0, [], [42], 0, []⟩ : VirtualMachine).peers ≠ [] ∧
    (⟨0, 2, 0⟩ : TickRand).comm_type = 2 ∧
    ¬ (⟨0, 2, 0⟩ : TickRand).rand_val <
        (⟨0, [], [42], 0, []⟩ : VirtualMachine).internal_event_prob ∧
    tick ⟨0, [], [42], 0, []⟩ ⟨0, 2, 0⟩ =
      some (⟨1, [], [42], 0, [⟨"INTERNAL", 0, 1, none⟩]⟩, []) := by
  refine ⟨by decide, rfl, by simp, ?_⟩
  simp [tick, process_message, process_internal_event]

/-- C5 (amended): the per-tick random-action branch as the code guards
it: category 1 sends to one random peer whenever the peers list is
non-empty; category 2 sends to one random peer only when there are at
least two peers and otherwise (zero or one peer) falls back to an
internal event; category 3 broadcasts whenever the peers list is
non-empty; with no peers every drawn category degrades to an internal
event, which still increments the clock by exactly 1. -/
theorem tick_category_semantics (vm : VirtualMachine) (r : TickRand)
    (hq : vm.message_queue = []) (hr : ¬ r.rand_val < vm.internal_event_prob) :
    (r.comm_type = 1 → vm.peers ≠ [] →
       tick vm r = send_message vm (some [(r.target_idx : Int)])) ∧
    (r.comm_type = 2 → 2 ≤ vm.peers.length →
       tick vm r = send_message vm (some [(r.target_idx : Int)])) ∧
    (r.comm_type = 2 → vm.peers.length < 2 →
       tick vm r = some (process_internal_event vm, [])) ∧
    (r.comm_type = 3 → vm.peers ≠ [] →
       tick vm r = send_message vm none) ∧
    (vm.peers = [] →
       tick vm r = some (process_internal_event vm, []) ∧
       (process_internal_event vm).logical_clock = vm.logical_clock + 1) := by
  refine ⟨?_, ?_, ?_, ?_, ?_⟩
  · intro hc hp
    simp [tick, process_message, hq, hr, hc, hp]
  · intro hc hp
    simp [tick, process_message, hq, hr, hc, hp]
  · intro hc hp
    have h2 : ¬ 2 ≤ vm.peers.length := by omega
    simp [tick, process_message, hq, hr, hc, h2]
  · intro hc hp
    simp [tick, process_message, hq, hr, hc, hp]
  · intro hp
    refine ⟨?_, rfl⟩
    simp [tick, process_message, hq, hr, hp]

/-- Witness for C5's amended theorem: two peers, category 2, wired
through the send path. -/
theorem tick_category_semantics_witness :
    (((⟨0, 2, 1⟩ : TickRand).comm_type = 1 →
        (⟨0, [], [10, 11], 0, []⟩ : VirtualMachine).peers ≠ [] →
        tick ⟨0, [], [10, 11], 0, []⟩ ⟨0, 2, 1⟩ =
          send_message ⟨0, [], [10, 11], 0, []⟩ (some [((⟨0, 2, 1⟩ : TickRand).target_idx : Int)])) ∧
     ((⟨0, 2, 1⟩ : TickRand).comm_type = 2 →
        2 ≤ (⟨0, [], [10, 11], 0, []⟩ : VirtualMachine).peers.length →
        tick ⟨0, [], [10, 11], 0, []⟩ ⟨0, 2, 1⟩ =
          send_message ⟨0, [], [10, 11], 0, []⟩ (some [((⟨0, 2, 1⟩ : TickRand).target_idx : Int)])) ∧
     ((⟨0, 2, 1⟩ : TickRand).comm_type = 2 →
        (⟨0, [], [10, 11], 0, []⟩ : VirtualMachine).peers.length < 2 →
        tick ⟨0, [], [10, 11], 0, []⟩ ⟨0, 2, 1⟩ =
          some (process_internal_event ⟨0, [], [10, 11], 0, []⟩, [])) ∧
     ((⟨0, 2, 1⟩ : TickRand).comm_type = 3 →
        (⟨0, [], [10, 11], 0, []⟩ : VirtualMachine).peers ≠ [] →
        tick ⟨0, [], [10, 11], 0, []⟩ ⟨0, 2, 1⟩ =
          send_message ⟨0, [], [10, 11], 0, []⟩ none) ∧
     ((⟨0, [], [10, 11], 0, []⟩ : VirtualMachine).peers = [] →
        tick ⟨0, [], [10, 11], 0, []⟩ ⟨0, 2, 1⟩ =
          some (process_internal_event ⟨0, [], [10, 11], 0, []⟩, []) ∧
        (process_internal_event ⟨0, [], [10, 11], 0, []⟩).logical_clock = (0 : Int) + 1)) :=
  tick_category_semantics ⟨0, [], [10, 11], 0, []⟩ ⟨0, 2, 1⟩ rfl (by simp)

/-! ### Trace-model lemmas -/

theorem stepOp_clock_mono (s : Sys) (op : Op) (k : Nat) :
    (s k).clock ≤ (stepOp s op k).clock := by
  cases op with
  | internal i =>
      by_cases hk : k = i
      · subst hk
        simp [stepOp, Function.update_same]
      · simp [stepOp, Function.update_noteq hk]
  | send i j =>
      simp only [stepOp, Function.update_apply]
      split_ifs <;> simp_all
  | recv i =>
      cases hqi : (s i).queue with
      | nil => simp [stepOp, hqi]
      | cons v rest =>
          by_cases hk : k = i
          · subst hk
            simp only [stepOp, hqi, Function.update_same]
            have h1 := le_max_left (s k).clock v
            omega
          · simp [stepOp, hqi, Function.update_noteq hk]

theorem runOps_clock_mono (s : Sys) (ops : List Op) (k : Nat) :
    (s k).clock ≤ (runOps s ops k).clock := by
  induction ops generalizing s with
  | nil => exact le_refl _
  | cons op rest ih =>
      exact le_trans (stepOp_clock_mono s op k) (ih (stepOp s op))

theorem stepOp_clock_strict (s : Sys) (op : Op) (h : opValid s op) :
    (s op.node).clock + 1 ≤ (stepOp s op op.node).clock := by
  cases op with
  | internal i => simp [stepOp, Op.node, Function.update_apply]
  | send i j =>
      have hij : i ≠ j := h
      simp [stepOp, Op.node, Function.update_apply, hij, Ne.symm hij]
  | recv i =>
      have hne : (s i).queue ≠ [] := h
      cases hqi : (s i).queue with
      | nil => exact absurd hqi hne
      | cons v rest =>
          simp only [stepOp, Op.node, hqi, Function.update_same]
          have h1 := le_max_left (s i).clock v
          omega

theorem runOps_append (s : Sys) (a b : List Op) :
    runOps s (a ++ b) = runOps (runOps s a) b := by
  induction a generalizing s with
  | nil => rfl
  | cons op rest ih => simp [runOps, ih]

theorem runOps_take_succ (s : Sys) (ops : List Op) (p : Nat) (op : Op)
    (h : ops.get? p = some op) :
    runOps s (ops.take (p + 1)) = stepOp (runOps s (ops.take p)) op := by
  have h' : ops[p]? = some op := by
    rw [← List.get?_eq_getElem?]
    exact h
  have hsplit : ops.take (p + 1) = ops.take p ++ [op] := by
    rw [List.take_succ, h']
    rfl
  rw [hsplit, runOps_append]
  rfl

theorem validFrom_append (s : Sys) (a b : List Op) :
    ValidFrom s (a ++ b) ↔ ValidFrom s a ∧ ValidFrom (runOps s a) b := by
  induction a generalizing s with
  | nil => simp [ValidFrom, runOps]
  | cons op rest ih =>
      simp [ValidFrom, runOps, ih, and_assoc]

theorem list_split_at_get {α : Type} (l : List α) (p : Nat) (x : α)
    (h : l.get? p = some x) :
    l = l.take p ++ x :: l.drop (p + 1) := by
  rw [List.get?_eq_getElem?] at h
  obtain ⟨hlt, hget⟩ := List.getElem?_eq_some_iff.mp h
  conv_lhs => rw [← List.take_append_drop p l]
  congr 1
  rw [List.drop_eq_getElem_cons hlt, hget]

theorem validFrom_at (s : Sys) (ops : List Op) (p : Nat) (op : Op)
    (h : ops.get? p = some op) (hv : ValidFrom s ops) :
    opValid (runOps s (ops.take p)) op := by
  rw [list_split_at_get ops p op h, validFrom_append] at hv
  exact hv.2.1

theorem clockAt_le (s : Sys) (ops : List Op) (k : Nat) (p q : Nat) (h : p ≤ q) :
    clockAt s ops k p ≤ clockAt s ops k q := by
  have hsplit : ops.take q = ops.take p ++ (ops.drop p).take (q - p) := by
    have h2 : p + (q - p) = q := by omega
    conv_lhs => rw [← h2]
    rw [List.take_add]
  unfold clockAt
  rw [hsplit, runOps_append]
  exact runOps_clock_mono _ _ k

theorem stepOp_queue_internal (s : Sys) (i k : Nat) :
    (stepOp s (.internal i) k).queue = (s k).queue := by
  by_cases hk : k = i
  · subst hk
    simp [stepOp, Function.update_same]
  · simp [stepOp, Function.update_noteq hk]

theorem stepOp_queue_send (s : Sys) (i j k : Nat) :
    (stepOp s (.send i j) k).queue =
      if k = j then (s k).queue ++ [(s i).clock + 1] else (s k).queue := by
  simp only [stepOp, Function.update_apply]
  split_ifs <;> simp_all

theorem countRecvBy_cons (j : Nat) (op : Op) (ops : List Op) :
    countRecvBy j (op :: ops) =
      (if op.isRecvBy j then 1 else 0) + countRecvBy j ops := by
  simp only [countRecvBy, List.filter_cons]
  split_ifs <;> simp [Nat.add_comm]

theorem sentVals_length (s : Sys) (j : Nat) (ops : List Op) :
    (sentVals s j ops).length = countSendTo j ops := by
  induction ops generalizing s with
  | nil => rfl
  | cons op rest ih =>
      cases op with
      | internal i => simp [sentVals, countSendTo, List.filter_cons, Op.isSendTo, ih _]
      | recv i => simp [sentVals, countSendTo, List.filter_cons, Op.isSendTo, ih _]
      | send i j' =>
          by_cases hj : j' = j <;>
            simp [sentVals, countSendTo, List.filter_cons, Op.isSendTo, hj, ih _,
              Nat.add_comm]

theorem sentVals_append (s : Sys) (j : Nat) (a b : List Op) :
    sentVals s j (a ++ b) = sentVals s j a ++ sentVals (runOps s a) j b := by
  induction a generalizing s with
  | nil => simp [sentVals, runOps]
  | cons op rest ih => simp [sentVals, runOps, ih, List.append_assoc]

theorem queue_evolution (s : Sys) (ops : List Op) (j : Nat) (hv : ValidFrom s ops) :
    (runOps s ops j).queue =
      ((s j).queue ++ sentVals s j ops).drop (countRecvBy j ops) := by
  induction ops generalizing s with
  | nil => simp [runOps, sentVals, countRecvBy]
  | cons op rest ih =>
      obtain ⟨hval, hrest⟩ := hv
      have ihr := ih (stepOp s op) hrest
      cases op with
      | internal i =>
          rw [runOps, ihr, stepOp_queue_internal]
          simp [sentVals, countRecvBy_cons, Op.isRecvBy, stepOp]
      | send i j' =>
          rw [runOps, ihr, stepOp_queue_send]
          by_cases hj : j = j'
          · subst hj
            simp [sentVals, countRecvBy_cons, Op.isRecvBy, List.append_assoc]
          · have hj' : ¬ j' = j := fun h => hj h.symm
            simp [sentVals, countRecvBy_cons, Op.isRecvBy, hj, hj']
      | recv i =>
          have hne : (s i).queue ≠ [] := hval
          cases hqi : (s i).queue with
          | nil => exact absurd hqi hne
          | cons v restQ =>
              rw [runOps, ihr]
              by_cases hj : j = i
              · subst hj
                have hq : (stepOp s (.recv j) j).queue = restQ := by
                  simp [stepOp, hqi, Function.update_same]
                rw [hq]
                have hsv : sentVals s j (Op.recv j :: rest) =
                    sentVals (stepOp s (.recv j)) j rest := by
                  simp [sentVals]
                rw [hsv, countRecvBy_cons, hqi]
                have hrb : (Op.recv j).isRecvBy j = true := by simp [Op.isRecvBy]
                rw [hrb]
                simp [Nat.add_comm]
              · have hq : (stepOp s (.recv i) j).queue = (s j).queue := by
                  simp [stepOp, hqi, Function.update_noteq hj]
                rw [hq]
                have hij : ¬ i = j := fun h => hj h.symm
                simp [sentVals, countRecvBy_cons, Op.isRecvBy, hij]

theorem opAt_eq (ops : List Op) (p : Nat) (op : Op) (h : ops.get? p = some op) :
    opAt ops p = op := by
  unfold opAt
  rw [h]
  rfl

theorem eventClock_same_node_lt (s : Sys) (ops : List Op) (p q : Nat)
    (opp opq : Op) (hp : ops.get? p = some opp) (hq : ops.get? q = some opq)
    (hpq : p < q) (hnode : opp.node = opq.node) (hv : ValidFrom s ops) :
    eventClock s ops p < eventClock s ops q := by
  have e1 : eventClock s ops p = clockAt s ops opq.node (p + 1) := by
    unfold eventClock
    rw [opAt_eq ops p opp hp, hnode]
  have e2 : eventClock s ops q = (stepOp (runOps s (ops.take q)) opq opq.node).clock := by
    unfold eventClock clockAt
    rw [opAt_eq ops q opq hq, runOps_take_succ s ops q opq hq]
  have h1 : clockAt s ops opq.node (p + 1) ≤ clockAt s ops opq.node q :=
    clockAt_le s ops opq.node (p + 1) q (by omega)
  have h2 := stepOp_clock_strict (runOps s (ops.take q)) opq (validFrom_at s ops q opq hq hv)
  have e3 : clockAt s ops opq.node q = ((runOps s (ops.take q)) opq.node).clock := rfl
  omega

theorem eventClock_message_lt (s : Sys) (ops : List Op) (p q i j : Nat)
    (hp : ops.get? p = some (.send i j)) (hq : ops.get? q = some (.recv j))
    (hpq : p < q)
    (hcnt : countSendTo j (ops.take p) = countRecvBy j (ops.take q))
    (hv : ValidFrom s ops) (hs0 : ∀ k, (s k).queue = []) :
    eventClock s ops p < eventClock s ops q := by
  have hvp : opValid (runOps s (ops.take p)) (.send i j) := validFrom_at s ops p _ hp hv
  have hij : i ≠ j := hvp
  -- the clock recorded at the send is the wire value
  have e1 : eventClock s ops p = ((runOps s (ops.take p)) i).clock + 1 := by
    unfold eventClock clockAt
    rw [opAt_eq ops p _ hp, runOps_take_succ s ops p _ hp]
    show (stepOp (runOps s (ops.take p)) (.send i j) (Op.node (.send i j))).clock = _
    simp [stepOp, Op.node, Function.update_apply, hij]
  -- the queue of j at time q starts with that wire value
  have hvtake : ValidFrom s (ops.take q) := by
    have h0 : ValidFrom s (ops.take q ++ ops.drop q) := by
      rw [List.take_append_drop]
      exact hv
    exact ((validFrom_append s _ _).mp h0).1
  have hqe := queue_evolution s (ops.take q) j hvtake
  rw [hs0 j] at hqe
  have hdecomp : ops.take q =
      ops.take p ++ Op.send i j :: (ops.drop (p + 1)).take (q - (p + 1)) := by
    have h2 : (p + 1) + (q - (p + 1)) = q := by omega
    have h' : ops[p]? = some (Op.send i j) := by
      rw [← List.get?_eq_getElem?]
      exact hp
    have h3 : ops.take (p + 1) = ops.take p ++ [Op.send i j] := by
      rw [List.take_succ, h']
      rfl
    conv_lhs => rw [← h2]
    rw [List.take_add, h3, List.append_assoc]
    rfl
  have hsv : sentVals s j (ops.take q) =
      sentVals s j (ops.take p) ++
        (((runOps s (ops.take p)) i).clock + 1) ::
          sentVals (stepOp (runOps s (ops.take p)) (.send i j)) j
            ((ops.drop (p + 1)).take (q - (p + 1))) := by
    rw [hdecomp, sentVals_append]
    congr 1
    simp [sentVals]
  have hlen : (sentVals s j (ops.take p)).length = countRecvBy j (ops.take q) := by
    rw [sentVals_length, hcnt]
  have hqueue : ((runOps s (ops.take q)) j).queue =
      (((runOps s (ops.take p)) i).clock + 1) ::
        sentVals (stepOp (runOps s (ops.take p)) (.send i j)) j
          ((ops.drop (p + 1)).take (q - (p + 1))) := by
    rw [hqe, List.nil_append, hsv, List.drop_left' hlen]
  -- clock recorded at the receive
  have e2 : eventClock s ops q =
      max ((runOps s (ops.take q)) j).clock (((runOps s (ops.take p)) i).clock + 1) + 1 := by
    unfold eventClock clockAt
    rw [opAt_eq ops q _ hq, runOps_take_succ s ops q _ hq]
    show (stepOp (runOps s (ops.take q)) (.recv j) (Op.node (.recv j))).clock = _
    simp only [stepOp, Op.node, hqueue, Function.update_same]
  rw [e1, e2]
  have h3 := le_max_right ((runOps s (ops.take q)) j).clock
    (((runOps s (ops.take p)) i).clock + 1)
  omega

theorem hb_eventClock_lt (s : Sys) (ops : List Op) (hs0 : ∀ k, (s k).queue = [])
    (hv : ValidFrom s ops) (p q : Nat) (hb : HB ops p q) :
    eventClock s ops p < eventClock s ops q := by
  induction hb with
  | same_node opp opq hpq hp hq hnode =>
      exact eventClock_same_node_lt s ops _ _ opp opq hp hq hpq hnode hv
  | message i j hpq hp hq hcnt =>
      exact eventClock_message_lt s ops _ _ i j hp hq hpq hcnt hv hs0
  | trans h1 h2 ih1 ih2 => exact lt_trans ih1 ih2

/-- C3: along every performable trace from the initial system (all clocks
0), each node's clock is non-decreasing from step to step, and every
INTERNAL, SEND or RECEIVE event raises its node's clock by at least 1. -/
theorem clock_monotone_trace (ops : List Op) (hv : ValidFrom initSys ops) :
    (∀ k p, clockAt initSys ops k p ≤ clockAt initSys ops k (p + 1)) ∧
    (∀ p op, ops.get? p = some op →
       clockAt initSys ops op.node p + 1 ≤ clockAt initSys ops op.node (p + 1)) := by
  constructor
  · intro k p
    exact clockAt_le initSys ops k p (p + 1) (Nat.le_succ p)
  · intro p op h
    have e : clockAt initSys ops op.node (p + 1) =
        (stepOp (runOps initSys (ops.take p)) op op.node).clock := by
      unfold clockAt
      rw [runOps_take_succ initSys ops p op h]
    rw [e]
    exact stepOp_clock_strict _ op (validFrom_at initSys ops p op h hv)

/-- Witness for C3 on a small three-event trace. -/
theorem clock_monotone_trace_witness :
    (∀ k p, clockAt initSys [Op.internal 0, Op.send 0 1, Op.recv 1] k p ≤
       clockAt initSys [Op.internal 0, Op.send 0 1, Op.recv 1] k (p + 1)) ∧
    (∀ p op, [Op.internal 0, Op.send 0 1, Op.recv 1].get? p = some op →
       clockAt initSys [Op.internal 0, Op.send 0 1, Op.recv 1] op.node p + 1 ≤
         clockAt initSys [Op.internal 0, Op.send 0 1, Op.recv 1] op.node (p + 1)) :=
  clock_monotone_trace [Op.internal 0, Op.send 0 1, Op.recv 1] (by decide)

/-- C4: if event `p` causally precedes event `q` (same-node order, or a
send matched with the receive that pops the value it transmitted, or a
chain of those), then the clock recorded at `p` is strictly below the
clock recorded at `q`. -/
theorem hb_clock_ordering (ops : List Op) (hv : ValidFrom initSys ops)
    (p q : Nat) (hb : HB ops p q) :
    eventClock initSys ops p < eventClock initSys ops q :=
  hb_eventClock_lt initSys ops (fun _ => rfl) hv p q hb

/-- Witness for C4 on the spec's concrete chain
A → B → C → D → E → F across three nodes. -/
theorem hb_clock_ordering_witness :
    eventClock initSys chainOps 0 < eventClock initSys chainOps 1 ∧
    eventClock initSys chainOps 1 < eventClock initSys chainOps 2 ∧
    eventClock initSys chainOps 2 < eventClock initSys chainOps 3 ∧
    eventClock initSys chainOps 3 < eventClock initSys chainOps 4 ∧
    eventClock initSys chainOps 4 < eventClock initSys chainOps 5 :=
  ⟨hb_clock_ordering chainOps (by decide) 0 1
      (HB.same_node (.internal 0) (.send 0 1) (by decide) rfl rfl rfl),
   hb_clock_ordering chainOps (by decide) 1 2
      (HB.message 0 1 (by decide) rfl rfl (by decide)),
   hb_clock_ordering chainOps (by decide) 2 3
      (HB.same_node (.recv 1) (.internal 1) (by decide) rfl rfl rfl),
   hb_clock_ordering chainOps (by decide) 3 4
      (HB.same_node (.internal 1) (.send 1 2) (by decide) rfl rfl rfl),
   hb_clock_ordering chainOps (by decide) 4 5
      (HB.message 1 2 (by decide) rfl rfl (by decide))⟩

theorem connect_to_peers_fst {α : Type} (l : List (α × (Nat → Bool))) :
    (connect_to_peers l).1 =
      l.filterMap (fun ab => if (connectLoop ab.2 10 0).1 then some ab.1 else none) := by
  induction l with
  | nil => rfl
  | cons ab rest ih =>
      cases hc : (connectLoop ab.2 10 0).1 <;>
        simp [connect_to_peers, List.filterMap_cons, hc, ih]

theorem connect_to_peers_snd {α : Type} (l : List (α × (Nat → Bool))) :
    (connect_to_peers l).2 = l.map (fun ab => (connectLoop ab.2 10 0).2) := by
  induction l with
  | nil => rfl
  | cons ab rest ih => simp [connect_to_peers, ih]

/-- C7: `connect_to_peers` dials each address in order; an
always-refusing endpoint gets exactly `max_retries = 10` attempts, each
followed by the 1-second backoff, after which that peer is skipped
(non-fatal — every following address is still dialed, and the
successfully connected ones are appended to `peers` in address order). -/
theorem connect_to_peers_retry_bound {α : Type} (l : List (α × (Nat → Bool))) :
    (connect_to_peers l).1 =
      l.filterMap (fun ab => if (connectLoop ab.2 10 0).1 then some ab.1 else none) ∧
    (connect_to_peers l).2 = l.map (fun ab => (connectLoop ab.2 10 0).2) ∧
    connectLoop (fun _ => false) 10 0 =
      (false, [.attempt 0, .sleep1, .attempt 1, .sleep1, .attempt 2, .sleep1,
               .attempt 3, .sleep1, .attempt 4, .sleep1, .attempt 5, .sleep1,
               .attempt 6, .sleep1, .attempt 7, .sleep1, .attempt 8, .sleep1,
               .attempt 9, .sleep1]) ∧
    countAttempts (connectLoop (fun _ => false) 10 0).2 = 10 :=
  ⟨connect_to_peers_fst l, connect_to_peers_snd l, by decide, by decide⟩

theorem handle_client_preserves (reads : List ReadResult) (vm : VirtualMachine) :
    (handle_client vm reads).logical_clock = vm.logical_clock ∧
    ∃ suffix, (handle_client vm reads).message_queue = vm.message_queue ++ suffix := by
  induction reads generalizing vm with
  | nil => exact ⟨rfl, [], by simp [handle_client]⟩
  | cons rr rest ih =>
      cases rr with
      | closed => exact ⟨rfl, [], by simp [handle_client]⟩
      | errRead => exact ⟨rfl, [], by simp [handle_client]⟩
      | chunk s =>
          cases hp : pyInt s with
          | none =>
              refine ⟨?_, [], ?_⟩ <;> simp [handle_client, hp]
          | some v =>
              obtain ⟨h1, suffix, h3⟩ := ih { vm with message_queue := vm.message_queue ++ [v] }
              refine ⟨?_, v :: suffix, ?_⟩
              · simpa [handle_client, hp] using h1
              · have : handle_client vm (ReadResult.chunk s :: rest) =
                    handle_client { vm with message_queue := vm.message_queue ++ [v] } rest := by
                  simp [handle_client, hp]
                rw [this, h3]
                simp

/-- C8: an inbound reader pushes every successfully decoded integer onto
the shared queue and otherwise terminates quietly: an empty read, a read
error, or an undecodable chunk stops this reader without touching the
clock, without disturbing the queue's existing contents (the queue only
ever grows by appending), and without raising (the reader is a total
function — no failure propagates to the node). -/
theorem handle_client_reader (vm : VirtualMachine) :
    (∀ s v rest, pyInt s = some v →
       handle_client vm (ReadResult.chunk s :: rest) =
         handle_client { vm with message_queue := vm.message_queue ++ [v] } rest) ∧
    (∀ s rest, pyInt s = none →
       handle_client vm (ReadResult.chunk s :: rest) = vm) ∧
    (∀ rest, handle_client vm (ReadResult.closed :: rest) = vm) ∧
    (∀ rest, handle_client vm (ReadResult.errRead :: rest) = vm) ∧
    (∀ reads, (handle_client vm reads).logical_clock = vm.logical_clock ∧
       ∃ suffix, (handle_client vm reads).message_queue = vm.message_queue ++ suffix) := by
  refine ⟨?_, ?_, fun rest => rfl, fun rest => rfl, fun reads => handle_client_preserves reads vm⟩
  · intro s v rest hp
    simp [handle_client, hp]
  · intro s rest hp
    simp [handle_client, hp]

/-- Witness for C8: decoding `"42"` pushes 42; `"abc"` stops the reader
with the state untouched. -/
theorem handle_client_reader_witness :
    (pyInt "42" = some 42 ∧
      handle_client (⟨7, [3], [], 0, []⟩ : VirtualMachine) [ReadResult.chunk "42"] =
        handle_client (⟨7, [3, 42], [], 0, []⟩ : VirtualMachine) []) ∧
    (pyInt "abc" = none ∧
      handle_client (⟨7, [3], [], 0, []⟩ : VirtualMachine) [ReadResult.chunk "abc"] =
        (⟨7, [3], [], 0, []⟩ : VirtualMachine)) :=
  ⟨⟨by decide, (handle_client_reader ⟨7, [3], [], 0, []⟩).1 "42" 42 [] (by decide)⟩,
   ⟨by decide, (handle_client_reader ⟨7, [3], [], 0, []⟩).2.1 "abc" [] (by decide)⟩⟩

/-! ### Decimal round-trip lemmas -/

theorem parseNatAux_append (acc : Nat) (xs ys : List Char) :
    parseNatAux acc (xs ++ ys) = (parseNatAux acc xs).bind (fun a => parseNatAux a ys) := by
  induction xs generalizing acc with
  | nil => rfl
  | cons c cs ih =>
      by_cases hc : isDigitChar c
      · simp [parseNatAux, hc, ih]
      · simp [parseNatAux, hc]

theorem digitChar_isDigit : ∀ d, d < 10 → isDigitChar (digitChar d) = true := by decide

theorem digitChar_val : ∀ d, d < 10 → digitVal (digitChar d) = d := by decide

theorem natDigitsAux_all_digits : ∀ fuel n, n < fuel →
    ∀ c ∈ natDigitsAux fuel n, isDigitChar c = true := by
  intro fuel
  induction fuel with
  | zero => intro n h; omega
  | succ fuel ih =>
      intro n hn c hc
      by_cases h10 : n < 10
      · simp [natDigitsAux, h10] at hc
        subst hc
        exact digitChar_isDigit n h10
      · simp [natDigitsAux, h10] at hc
        cases hc with
        | inl h => exact ih (n / 10) (by omega) c h
        | inr h =>
            subst h
            exact digitChar_isDigit (n % 10) (by omega)

theorem natDigitsAux_ne_nil : ∀ fuel n, n < fuel → natDigitsAux fuel n ≠ [] := by
  intro fuel n h
  cases fuel with
  | zero => omega
  | succ fuel =>
      by_cases h10 : n < 10 <;> simp [natDigitsAux, h10]

theorem natDigitsAux_head_digit : ∀ fuel n, n < fuel →
    ∃ c cs, natDigitsAux fuel n = c :: cs ∧ isDigitChar c = true := by
  intro fuel
  induction fuel with
  | zero => intro n h; omega
  | succ fuel ih =>
      intro n hn
      by_cases h10 : n < 10
      · exact ⟨digitChar n, [], by simp [natDigitsAux, h10], digitChar_isDigit n h10⟩
      · obtain ⟨c, cs, hd, hdig⟩ := ih (n / 10) (by omega)
        refine ⟨c, cs ++ [digitChar (n % 10)], ?_, hdig⟩
        simp [natDigitsAux, h10, hd]

theorem parseNatAux_natDigitsAux : ∀ fuel n, n < fuel →
    parseNatAux 0 (natDigitsAux fuel n) = some n := by
  intro fuel
  induction fuel with
  | zero => intro n h; omega
  | succ fuel ih =>
      intro n hn
      by_cases h10 : n < 10
      · simp [natDigitsAux, h10, parseNatAux, digitChar_isDigit n h10, digitChar_val n h10]
      · rw [show natDigitsAux (fuel + 1) n =
              natDigitsAux fuel (n / 10) ++ [digitChar (n % 10)] from by
            simp [natDigitsAux, h10]]
        rw [parseNatAux_append, ih (n / 10) (by omega)]
        simp [parseNatAux, digitChar_isDigit (n % 10) (by omega),
          digitChar_val (n % 10) (by omega)]
        omega

theorem parseNatChars_digits (n : Nat) :
    parseNatChars (natDigitsAux (n + 1) n) = some n := by
  unfold parseNatChars
  rw [if_neg (by exact natDigitsAux_ne_nil (n + 1) n (by omega))]
  exact parseNatAux_natDigitsAux (n + 1) n (by omega)

theorem parseNatChars_natStr (n : Nat) : parseNatChars (natStr n).data = some n :=
  parseNatChars_digits n

theorem parseIntChars_intStr (i : Int) : parseIntChars (intStr i).data = some i := by
  by_cases hi : i < 0
  · have he : intStr i = "-" ++ natStr (-i).toNat := by simp [intStr, hi]
    rw [he]
    show parseIntChars ('-' :: (natStr (-i).toNat).data) = some i
    rw [show parseIntChars ('-' :: (natStr (-i).toNat).data) =
        (parseNatChars (natStr (-i).toNat).data).map (fun n => -(n : Int)) from by
      simp [parseIntChars]]
    rw [parseNatChars_natStr]
    show some (-(((-i).toNat : Nat) : Int)) = some i
    exact congrArg some (by omega)
  · have he : intStr i = natStr i.toNat := by simp [intStr, hi]
    rw [he]
    obtain ⟨c, cs, hd, hdig⟩ := natDigitsAux_head_digit (i.toNat + 1) i.toNat (by omega)
    show parseIntChars (natDigitsAux (i.toNat + 1) i.toNat) = some i
    rw [hd]
    have hcm : ¬ c = '-' := by
      intro h
      subst h
      exact absurd hdig (by decide)
    have hcp : ¬ c = '+' := by
      intro h
      subst h
      exact absurd hdig (by decide)
    rw [show parseIntChars (c :: cs) =
        (parseNatChars (c :: cs)).map (fun n => (n : Int)) from by
      simp [parseIntChars, hcm, hcp]]
    rw [← hd, parseNatChars_digits]
    show some ((i.toNat : Int)) = some i
    exact congrArg some (by omega)

/-! ### Character classes, stripping and splitting -/

theorem digit_not_space (c : Char) (h : isDigitChar c = true) : isPySpace c = false := by
  by_contra hc
  have hc' : isPySpace c = true := by
    cases hps : isPySpace c
    · exact absurd hps hc
    · rfl
  simp only [isPySpace, Bool.or_eq_true, decide_eq_true_eq] at hc'
  rcases hc' with h1 | h1 | h1 | h1 | h1 | h1 <;> subst h1 <;> exact absurd h (by decide)

theorem digit_not_comma (c : Char) (h : isDigitChar c = true) : ¬ c = ',' := by
  intro hc
  subst hc
  exact absurd h (by decide)

theorem floatTokenChar_not_comma (c : Char) (h : isFloatTokenChar c = true) : ¬ c = ',' := by
  intro hc
  subst hc
  exact absurd h (by decide)

theorem floatTokenChar_not_space (c : Char) (h : isFloatTokenChar c = true) :
    isPySpace c = false := by
  simp only [isFloatTokenChar, Bool.or_eq_true, decide_eq_true_eq] at h
  rcases h with h1 | h1 | h1 | h1 | h1 | h1
  · exact digit_not_space c h1
  all_goals (subst h1; rfl)

theorem natStr_no_comma (n : Nat) : ',' ∉ (natStr n).data := by
  intro hmem
  exact digit_not_comma ','
    (natDigitsAux_all_digits (n + 1) n (by omega) ',' hmem) rfl

theorem intStr_no_comma (i : Int) : ',' ∉ (intStr i).data := by
  intro hmem
  by_cases hi : i < 0
  · rw [show intStr i = "-" ++ natStr (-i).toNat from by simp [intStr, hi]] at hmem
    have hm2 : (',' : Char) ∈ ('-' :: (natStr (-i).toNat).data) := hmem
    rcases List.mem_cons.mp hm2 with h1 | h1
    · exact absurd h1 (by decide)
    · exact natStr_no_comma _ h1
  · rw [show intStr i = natStr i.toNat from by simp [intStr, hi]] at hmem
    exact natStr_no_comma _ hmem

theorem natDigitsAux_last_digit : ∀ fuel n, n < fuel →
    ∃ c, (natDigitsAux fuel n).getLast? = some c ∧ isDigitChar c = true := by
  intro fuel n h
  cases fuel with
  | zero => omega
  | succ fuel =>
      by_cases h10 : n < 10
      · exact ⟨digitChar n, by simp [natDigitsAux, h10], digitChar_isDigit n h10⟩
      · refine ⟨digitChar (n % 10), ?_, digitChar_isDigit (n % 10) (by omega)⟩
        simp [natDigitsAux, h10, List.getLast?_concat]

theorem intStr_last_digit (i : Int) :
    ∃ c, (intStr i).data.getLast? = some c ∧ isDigitChar c = true := by
  by_cases hi : i < 0
  · rw [show intStr i = "-" ++ natStr (-i).toNat from by simp [intStr, hi]]
    obtain ⟨c, hc, hdig⟩ := natDigitsAux_last_digit ((-i).toNat + 1) (-i).toNat (by omega)
    refine ⟨c, ?_, hdig⟩
    show (['-'] ++ (natStr (-i).toNat).data).getLast? = some c
    rw [List.getLast?_append]
    have : (natStr (-i).toNat).data.getLast? = some c := hc
    rw [this]
    rfl
  · rw [show intStr i = natStr i.toNat from by simp [intStr, hi]]
    obtain ⟨c, hc, hdig⟩ := natDigitsAux_last_digit (i.toNat + 1) i.toNat (by omega)
    exact ⟨c, hc, hdig⟩

theorem intStr_head_not_space (i : Int) :
    ∀ c, (intStr i).data.head? = some c → isPySpace c = false := by
  intro c hc
  by_cases hi : i < 0
  · rw [show intStr i = "-" ++ natStr (-i).toNat from by simp [intStr, hi]] at hc
    have : c = '-' := by
      have : ('-' :: (natStr (-i).toNat).data).head? = some c := hc
      simpa using this.symm
    subst this
    rfl
  · rw [show intStr i = natStr i.toNat from by simp [intStr, hi]] at hc
    obtain ⟨c0, cs, hd, hdig⟩ := natDigitsAux_head_digit (i.toNat + 1) i.toNat (by omega)
    have hc' : (c0 :: cs).head? = some c := by
      rw [← hd]
      exact hc
    have : c0 = c := by simpa using hc'
    subst this
    exact digit_not_space c0 hdig

theorem parseIntChars_natStr (n : Nat) :
    parseIntChars (natStr n).data = some (n : Int) := by
  obtain ⟨c, cs, hd, hdig⟩ := natDigitsAux_head_digit (n + 1) n (by omega)
  show parseIntChars (natDigitsAux (n + 1) n) = some (n : Int)
  rw [hd]
  have hcm : ¬ c = '-' := by
    intro h
    subst h
    exact absurd hdig (by decide)
  have hcp : ¬ c = '+' := by
    intro h
    subst h
    exact absurd hdig (by decide)
  rw [show parseIntChars (c :: cs) =
      (parseNatChars (c :: cs)).map (fun m => (m : Int)) from by
    simp [parseIntChars, hcm, hcp]]
  rw [← hd, parseNatChars_digits]
  rfl

theorem pyStripChars_id (cs : List Char)
    (hhead : ∀ c, cs.head? = some c → isPySpace c = false)
    (hlast : ∀ c, cs.getLast? = some c → isPySpace c = false) :
    pyStripChars cs = cs := by
  cases cs with
  | nil => rfl
  | cons c t =>
      unfold pyStripChars
      rw [List.dropWhile_cons_of_neg (by simp [hhead c rfl])]
      cases hrev : (c :: t).reverse with
      | nil => exact absurd hrev (by simp)
      | cons c1 r1 =>
          have hc1 : (c :: t).getLast? = some c1 := by
            rw [← List.head?_reverse, hrev]
            rfl
          have hns : ¬ (isPySpace c1 = true) := by simp [hlast c1 hc1]
          rw [List.dropWhile_cons_of_neg hns, ← hrev,
            List.reverse_reverse]

theorem pyStripChars_wrap (cs : List Char)
    (hhead : ∀ c, cs.head? = some c → isPySpace c = false)
    (hlast : ∀ c, cs.getLast? = some c → isPySpace c = false) :
    pyStripChars (cs ++ ['\n']) = cs := by
  cases cs with
  | nil => rfl
  | cons c t =>
      unfold pyStripChars
      rw [show (c :: t) ++ ['\n'] = c :: (t ++ ['\n']) from rfl]
      rw [List.dropWhile_cons_of_neg (by simp [hhead c rfl])]
      rw [show c :: (t ++ ['\n']) = (c :: t) ++ ['\n'] from rfl]
      rw [List.reverse_append]
      rw [show (['\n'] : List Char).reverse ++ (c :: t).reverse =
          '\n' :: (c :: t).reverse from rfl]
      rw [List.dropWhile_cons_of_pos (by decide)]
      cases hrev : (c :: t).reverse with
      | nil => exact absurd hrev (by simp)
      | cons c1 r1 =>
          have hc1 : (c :: t).getLast? = some c1 := by
            rw [← List.head?_reverse, hrev]
            rfl
          have hns : ¬ (isPySpace c1 = true) := by simp [hlast c1 hc1]
          rw [List.dropWhile_cons_of_neg hns, ← hrev,
            List.reverse_reverse]

theorem breakSep_no_sep (sep : Char) (xs : List Char) (h : sep ∉ xs) :
    breakSep sep xs = (xs, none) := by
  induction xs with
  | nil => rfl
  | cons c cs ih =>
      simp only [List.mem_cons, not_or] at h
      have hc : ¬ c = sep := fun hc => h.1 hc.symm
      simp [breakSep, hc, ih h.2]

theorem breakSep_append (sep : Char) (xs ys : List Char) (h : sep ∉ xs) :
    breakSep sep (xs ++ sep :: ys) = (xs, some ys) := by
  induction xs with
  | nil => simp [breakSep]
  | cons c cs ih =>
      simp only [List.mem_cons, not_or] at h
      have hc : ¬ c = sep := fun hc => h.1 hc.symm
      simp [breakSep, hc, ih h.2]

theorem splitLimit_succ_append (sep : Char) (n : Nat) (xs ys : List Char) (h : sep ∉ xs) :
    splitLimit sep (n + 1) (xs ++ sep :: ys) = xs :: splitLimit sep n ys := by
  conv_lhs => unfold splitLimit
  rw [breakSep_append sep xs ys h]

theorem splitLimit_no_sep (sep : Char) (n : Nat) (xs : List Char) (h : sep ∉ xs) :
    splitLimit sep n xs = [xs] := by
  cases n with
  | zero => rfl
  | succ n =>
      conv_lhs => unfold splitLimit
      rw [breakSep_no_sep sep xs h]

theorem getLast?_append_cons (A B : List Char) (x : Char) (hB : B ≠ []) :
    (A ++ x :: B).getLast? = B.getLast? := by
  cases hb : B.getLast? with
  | none => exact absurd (List.getLast?_eq_none_iff.mp hb) hB
  | some b =>
      rw [show A ++ x :: B = (A ++ [x]) ++ B from by simp]
      rw [List.getLast?_append, hb]
      rfl

theorem natStr_strip_id (n : Nat) : pyStripChars (natStr n).data = (natStr n).data := by
  apply pyStripChars_id
  · intro c0 hc0
    obtain ⟨c1, cs, hd, hdig⟩ := natDigitsAux_head_digit (n + 1) n (by omega)
    have : (c1 :: cs).head? = some c0 := by
      rw [← hd]
      exact hc0
    have he : c1 = c0 := by simpa using this
    subst he
    exact digit_not_space c1 hdig
  · intro c0 hc0
    obtain ⟨c1, hl, hdig⟩ := natDigitsAux_last_digit (n + 1) n (by omega)
    have he : c1 = c0 := by
      have h1 : (natStr n).data.getLast? = some c1 := hl
      rw [h1] at hc0
      exact Option.some_injective _ hc0
    subst he
    exact digit_not_space c1 hdig

theorem intStr_strip_id (i : Int) : pyStripChars (intStr i).data = (intStr i).data := by
  apply pyStripChars_id
  · exact intStr_head_not_space i
  · intro c0 hc0
    obtain ⟨c1, hl, hdig⟩ := intStr_last_digit i
    have he : c1 = c0 := by
      rw [hl] at hc0
      exact Option.some_injective _ hc0
    subst he
    exact digit_not_space c1 hdig

theorem parseLogLine_format (et ts : String) (q : Nat) (c : Int) (extra : Option String)
    (het_nc : ',' ∉ et.data)
    (het_head : ∃ c0 t0, et.data = c0 :: t0 ∧ isPySpace c0 = false)
    (hts : isFloatToken ts.data = true)
    (hextra : ∀ e, extra = some e → e.data ≠ [] ∧
        ∀ c0, e.data.getLast? = some c0 → isPySpace c0 = false) :
    parseLogLine (formatLogRecord ⟨et, q, c, extra⟩ ts ++ "\n") =
      some ⟨et, ts, (q : Int), c, extra.getD ""⟩ := by
  obtain ⟨c0, t0, het, hc0⟩ := het_head
  have hts' := hts
  simp only [isFloatToken, Bool.and_eq_true, decide_eq_true_eq] at hts'
  obtain ⟨htsne, htsall, htsany⟩ := hts'
  have htsAllMem : ∀ x ∈ ts.data, isFloatTokenChar x = true := by
    intro x hx
    exact List.all_eq_true.mp htsall x hx
  have hts_nc : ',' ∉ ts.data := fun hm => floatTokenChar_not_comma ',' (htsAllMem ',' hm) rfl
  have hq_nc : ',' ∉ (natStr q).data := natStr_no_comma q
  have hc_nc : ',' ∉ (intStr c).data := intStr_no_comma c
  have hcomma : (",".data : List Char) = [','] := rfl
  have hnl : ("\n".data : List Char) = ['\n'] := rfl
  obtain ⟨cl, hcl, hcldig⟩ := intStr_last_digit c
  cases extra with
  | none =>
      have hXdata : ((formatLogRecord ⟨et, q, c, none⟩ ts ++ "\n").data) =
          (et.data ++ ',' :: (ts.data ++ ',' ::
            ((natStr q).data ++ ',' :: (intStr c).data))) ++ ['\n'] := by
        simp [formatLogRecord, hcomma, hnl, List.append_assoc]
      have hhead : ∀ cx, (et.data ++ ',' :: (ts.data ++ ',' ::
          ((natStr q).data ++ ',' :: (intStr c).data))).head? = some cx →
          isPySpace cx = false := by
        intro cx hcx
        rw [het] at hcx
        have : cx = c0 := by simpa using hcx.symm
        subst this
        exact hc0
      have hlast : ∀ cx, (et.data ++ ',' :: (ts.data ++ ',' ::
          ((natStr q).data ++ ',' :: (intStr c).data))).getLast? = some cx →
          isPySpace cx = false := by
        intro cx hcx
        rw [getLast?_append_cons _ _ _ (by simp),
            getLast?_append_cons _ _ _ (by simp),
            getLast?_append_cons _ _ _ (by
              intro hnil
              rw [hnil] at hcl
              cases hcl)] at hcx
        rw [hcl] at hcx
        have : cl = cx := Option.some_injective _ hcx
        subst this
        exact digit_not_space cl hcldig
      unfold parseLogLine
      rw [hXdata, pyStripChars_wrap _ hhead hlast]
      rw [splitLimit_succ_append ',' 3 _ _ het_nc,
          splitLimit_succ_append ',' 2 _ _ hts_nc,
          splitLimit_succ_append ',' 1 _ _ hq_nc,
          splitLimit_no_sep ',' 1 _ hc_nc]
      simp only [List.get?]
      rw [hts]
      simp only [if_true]
      rw [natStr_strip_id, parseIntChars_natStr, intStr_strip_id, parseIntChars_intStr]
      rfl
  | some e =>
      obtain ⟨hene, helast⟩ := hextra e rfl
      have hXdata : ((formatLogRecord ⟨et, q, c, some e⟩ ts ++ "\n").data) =
          (et.data ++ ',' :: (ts.data ++ ',' ::
            ((natStr q).data ++ ',' :: ((intStr c).data ++ ',' :: e.data)))) ++ ['\n'] := by
        simp [formatLogRecord, hcomma, hnl, List.append_assoc]
      have hhead : ∀ cx, (et.data ++ ',' :: (ts.data ++ ',' ::
          ((natStr q).data ++ ',' :: ((intStr c).data ++ ',' :: e.data)))).head? = some cx →
          isPySpace cx = false := by
        intro cx hcx
        rw [het] at hcx
        have : cx = c0 := by simpa using hcx.symm
        subst this
        exact hc0
      have hlast : ∀ cx, (et.data ++ ',' :: (ts.data ++ ',' ::
          ((natStr q).data ++ ',' :: ((intStr c).data ++ ',' :: e.data)))).getLast? = some cx →
          isPySpace cx = false := by
        intro cx hcx
        rw [getLast?_append_cons _ _ _ (by simp),
            getLast?_append_cons _ _ _ (by simp),
            getLast?_append_cons _ _ _ (by simp),
            getLast?_append_cons _ _ _ hene] at hcx
        exact helast cx hcx
      unfold parseLogLine
      rw [hXdata, pyStripChars_wrap _ hhead hlast]
      rw [splitLimit_succ_append ',' 3 _ _ het_nc,
          splitLimit_succ_append ',' 2 _ _ hts_nc,
          splitLimit_succ_append ',' 1 _ _ hq_nc,
          splitLimit_succ_append ',' 0 _ _ hc_nc]
      simp only [List.get?]
      rw [hts]
      simp only [if_true]
      rw [natStr_strip_id, parseIntChars_natStr, intStr_strip_id, parseIntChars_intStr]
      rfl

/-- C9: every log line the node emits round-trips through the
`parse_log_file` line parser — which splits on the first 4 commas only —
into the same `(eventType, timestamp, queueDepth, logicalClock, extra)`
tuple: the timestamp token is preserved verbatim (Python guarantees
`float(str(x)) == x`, so the textual token carries the float exactly),
the queue depth and clock integers are preserved exactly, and `extra` is
the literal `all peers` or `peer(s) [i, j, ...]` for SEND, the
`key=value;key=value` parameter string for START, and absent (parsed as
`""`) for INTERNAL and RECEIVE. -/
theorem log_line_round_trip (ts : String) (hts : isFloatToken ts.data = true)
    (q : Nat) (c : Int) :
    parseLogLine (formatLogRecord ⟨"INTERNAL", q, c, none⟩ ts ++ "\n") =
      some ⟨"INTERNAL", ts, (q : Int), c, ""⟩ ∧
    parseLogLine (formatLogRecord ⟨"RECEIVE", q, c, none⟩ ts ++ "\n") =
      some ⟨"RECEIVE", ts, (q : Int), c, ""⟩ ∧
    parseLogLine (formatLogRecord ⟨"SEND", q, c, some "all peers"⟩ ts ++ "\n") =
      some ⟨"SEND", ts, (q : Int), c, "all peers"⟩ ∧
    (∀ idx : List Int,
       parseLogLine (formatLogRecord ⟨"SEND", q, c,
           some ("peer(s) " ++ pyIntListRepr idx)⟩ ts ++ "\n") =
         some ⟨"SEND", ts, (q : Int), c, "peer(s) " ++ pyIntListRepr idx⟩) ∧
    (∀ (rate : Nat) (ps : String), isFloatToken ps.data = true →
       parseLogLine (formatLogRecord ⟨"START", q, c,
           some ("clock_rate=" ++ natStr rate ++ ";internal_prob=" ++ ps)⟩ ts ++ "\n") =
         some ⟨"START", ts, (q : Int), c,
           "clock_rate=" ++ natStr rate ++ ";internal_prob=" ++ ps⟩) := by
  refine ⟨?_, ?_, ?_, ?_, ?_⟩
  · exact parseLogLine_format "INTERNAL" ts q c none (by decide)
      ⟨'I', ['N', 'T', 'E', 'R', 'N', 'A', 'L'], by decide, by decide⟩ hts
      (fun e he => nomatch he)
  · exact parseLogLine_format "RECEIVE" ts q c none (by decide)
      ⟨'R', ['E', 'C', 'E', 'I', 'V', 'E'], by decide, by decide⟩ hts
      (fun e he => nomatch he)
  · refine parseLogLine_format "SEND" ts q c (some "all peers") (by decide)
      ⟨'S', ['E', 'N', 'D'], by decide, by decide⟩ hts ?_
    intro e he
    injection he with he'
    subst he'
    refine ⟨by decide, ?_⟩
    intro c0 hc0
    have hl : ("all peers".data : List Char).getLast? = some 's' := by decide
    rw [hl] at hc0
    have : 's' = c0 := Option.some_injective _ hc0
    subst this
    rfl
  · intro idx
    refine parseLogLine_format "SEND" ts q c (some ("peer(s) " ++ pyIntListRepr idx))
      (by decide) ⟨'S', ['E', 'N', 'D'], by decide, by decide⟩ hts ?_
    intro e he
    injection he with he'
    subst he'
    constructor
    · simp [pyIntListRepr]
    · intro c0 hc0
      have hrb : ("]".data : List Char) = [']'] := rfl
      have hl : (("peer(s) " ++ pyIntListRepr idx).data).getLast? = some ']' := by
        have h1 : ("peer(s) " ++ pyIntListRepr idx).data =
            ("peer(s) ".data ++ ("[" ++ String.intercalate ", " (idx.map toString)).data) ++
              [']'] := by
          simp [pyIntListRepr, hrb, List.append_assoc]
        rw [h1]
        exact List.getLast?_concat _
      rw [hl] at hc0
      have : ']' = c0 := Option.some_injective _ hc0
      subst this
      rfl
  · intro rate ps hps
    have hps' := hps
    simp only [isFloatToken, Bool.and_eq_true, decide_eq_true_eq] at hps'
    obtain ⟨hpsne, hpsall, hpsany⟩ := hps'
    refine parseLogLine_format "START" ts q c
      (some ("clock_rate=" ++ natStr rate ++ ";internal_prob=" ++ ps)) (by decide)
      ⟨'S', ['T', 'A', 'R', 'T'], by decide, by decide⟩ hts ?_
    intro e he
    injection he with he'
    subst he'
    constructor
    · simp [hpsne]
    · intro c0 hc0
      cases hpl : ps.data.getLast? with
      | none => exact absurd (List.getLast?_eq_none_iff.mp hpl) hpsne
      | some cp =>
          have hl : (("clock_rate=" ++ natStr rate ++ ";internal_prob=" ++ ps).data).getLast? =
              some cp := by
            have h1 : ("clock_rate=" ++ natStr rate ++ ";internal_prob=" ++ ps).data =
                ("clock_rate=" ++ natStr rate ++ ";internal_prob=").data ++ ps.data :=
              String.data_append _ _
            rw [h1, List.getLast?_append, hpl]
            rfl
          rw [hl] at hc0
          have : cp = c0 := Option.some_injective _ hc0
          subst this
          exact floatTokenChar_not_space cp
            (List.all_eq_true.mp hpsall cp (List.mem_of_getLast?_eq_some hpl))

/-- Witness for C9 at timestamp token `"1700.5"`, queue depth 2,
clock 7, targets `[0, 2]`, clock rate 3, probability token `"0.7"`. -/
theorem log_line_round_trip_witness :
    parseLogLine (formatLogRecord ⟨"INTERNAL", 2, 7, none⟩ "1700.5" ++ "\n") =
      some ⟨"INTERNAL", "1700.5", 2, 7, ""⟩ ∧
    parseLogLine (formatLogRecord ⟨"RECEIVE", 2, 7, none⟩ "1700.5" ++ "\n") =
      some ⟨"RECEIVE", "1700.5", 2, 7, ""⟩ ∧
    parseLogLine (formatLogRecord ⟨"SEND", 2, 7, some "all peers"⟩ "1700.5" ++ "\n") =
      some ⟨"SEND", "1700.5", 2, 7, "all peers"⟩ ∧
    parseLogLine (formatLogRecord ⟨"SEND", 2, 7,
        some ("peer(s) " ++ pyIntListRepr [0, 2])⟩ "1700.5" ++ "\n") =
      some ⟨"SEND", "1700.5", 2, 7, "peer(s) " ++ pyIntListRepr [0, 2]⟩ ∧
    parseLogLine (formatLogRecord ⟨"START", 2, 7,
        some ("clock_rate=" ++ natStr 3 ++ ";internal_prob=" ++ "0.7")⟩ "1700.5" ++ "\n") =
      some ⟨"START", "1700.5", 2, 7, "clock_rate=" ++ natStr 3 ++ ";internal_prob=" ++ "0.7"⟩ :=
  ⟨(log_line_round_trip "1700.5" (by decide) 2 7).1,
   (log_line_round_trip "1700.5" (by decide) 2 7).2.1,
   (log_line_round_trip "1700.5" (by decide) 2 7).2.2.1,
   (log_line_round_trip "1700.5" (by decide) 2 7).2.2.2.1 [0, 2],
   (log_line_round_trip "1700.5" (by decide) 2 7).2.2.2.2 3 "0.7" (by decide)⟩

end LogicalClock
